import Mathlib

/-!
Verification of `src/smart_split.py` (outline-based PDF split planner).

The pypdf outline is a flat list in which a nested list immediately
following a destination holds that destination's children.  A destination
carries a title and the result of resolving its target page
(`get_destination_page_number`, which returns `None` on failure); we embed
that resolution result directly as an `Option Nat` on the node.
-/

/-- One item of a pypdf outline list: either a destination (title plus the
result of page resolution, `none` when resolution fails) or a nested list
of children belonging to the preceding destination. -/
inductive OutlineItem where
  | dest (title : String) (page : Option Nat)
  | sub (items : List OutlineItem)

/-- A selected split point, mirroring the dict
`{"title": ..., "page": ..., "level": ...}` built by `get_split_nodes`. -/
structure SplitNode where
  title : String
  page : Nat
  level : Nat
deriving DecidableEq

/-- A row of the final plan, mirroring the dict
`{"title": ..., "start_page": ..., "end_page": ..., "filename": ...}`
appended by `generate_split_plan`. -/
structure PartitionEntry where
  title : String
  start_page : Nat
  end_page : Nat
  filename : String
deriving DecidableEq

/-- Embedding of `get_split_nodes` (src/smart_split.py lines 67–127): walk
the flat outline with one-element lookahead; a list item is recursed into at
depth+1; a destination at the target depth is taken (children skipped); a
destination above the target depth is recursed into when it has children and
taken itself when it does not; destinations whose page failed to resolve are
never emitted; below the target depth nothing is emitted (and children of a
skipped-over destination are stepped past without recursion). -/
def get_split_nodes : List OutlineItem → Nat → Nat → List SplitNode
  | [], _, _ => []
  | OutlineItem.sub items :: rest, cd, td =>
      get_split_nodes items (cd + 1) td ++ get_split_nodes rest cd td
  | OutlineItem.dest title pg :: OutlineItem.sub children :: rest, cd, td =>
      (if cd = td then
        (match pg with
         | some p => [{ title := title, page := p, level := cd }]
         | none => [])
       else if cd < td then
        get_split_nodes children (cd + 1) td
       else []) ++ get_split_nodes rest cd td
  | OutlineItem.dest title pg :: rest, cd, td =>
      (if cd = td ∨ cd < td then
        (match pg with
         | some p => [{ title := title, page := p, level := cd }]
         | none => [])
       else []) ++ get_split_nodes rest cd td

/-- Characters removed by the regex class `[\\/*?:",<>|]` in
`sanitize_filename` (src/smart_split.py line 14).  Note the class contains a
comma between `"` and `<`. -/
def forbiddenChars : List Char := ['\\', '/', '*', '?', ':', '"', ',', '<', '>', '|']

/-- Per-character effect of `re.sub(r'[\\/*?:",<>|]', "_", ...)`: the regex
is a single-character class, so the substitution maps each character
independently. -/
def replaceForbidden (c : Char) : Char := if c ∈ forbiddenChars then '_' else c

/-- Per-character effect of `.replace(" ", "_")`. -/
def replaceSpace (c : Char) : Char := if c = ' ' then '_' else c

/-- Whitespace as stripped by Python `str.strip()` (modelled over the ASCII
whitespace characters space, tab, newline, carriage return, vertical tab and
form feed). -/
def pyWhitespace (c : Char) : Bool :=
  c = ' ' || c = '\t' || c = '\n' || c = '\r' || c = '\x0b' || c = '\x0c'

/-- Python `str.strip()` on a character list: drop whitespace from both
ends. -/
def pyStrip (l : List Char) : List Char :=
  ((l.dropWhile pyWhitespace).reverse.dropWhile pyWhitespace).reverse

/-- Embedding of `sanitize_filename` (src/smart_split.py lines 9–17): replace
the regex class characters with `_`, then spaces with `_`, then strip. -/
def sanitize_filename (s : String) : String :=
  String.mk (pyStrip ((s.data.map replaceForbidden).map replaceSpace))

/-- Python `f"{n:02d}"` for a natural number: zero-pad to width 2. -/
def fmt02 (n : Nat) : String := if n < 10 then "0" ++ toString n else toString n

/-- Stable insertion of a node into a page-sorted list: the new node goes
after every existing node whose page does not exceed its page. -/
def insertNode (n : SplitNode) : List SplitNode → List SplitNode
  | [] => [n]
  | m :: rest => if m.page ≤ n.page then m :: insertNode n rest else n :: m :: rest

/-- Embedding of `raw_nodes.sort(key=lambda x: x['page'])`
(src/smart_split.py line 164): Python `list.sort` is a stable sort by key,
realised here as left-to-right stable insertion sort by page. -/
def sortNodes (l : List SplitNode) : List SplitNode :=
  l.foldl (fun acc n => insertNode n acc) []

/-- Embedding of the plan-building loop of `generate_split_plan`
(src/smart_split.py lines 169–194): `idx` is the running 0-based enumeration
index `i`; the end page is the next node's page, or `total` for the last
node; a section with `start_page >= end_page` is skipped (with a printed
warning, modelled separately by `skippedSections`) and the loop continues;
the filename uses the enumeration index `i+1`, zero-padded to two digits. -/
def buildPlanAux (pfx : String) (total : Nat) : Nat → List SplitNode → List PartitionEntry
  | _, [] => []
  | idx, n :: rest =>
    let endPage := match rest with
      | [] => total
      | m :: _ => m.page
    if n.page ≥ endPage then
      buildPlanAux pfx total (idx + 1) rest
    else
      { title := n.title, start_page := n.page, end_page := endPage,
        filename := pfx ++ "_" ++ fmt02 (idx + 1) ++ "_" ++ sanitize_filename n.title ++ ".pdf" }
        :: buildPlanAux pfx total (idx + 1) rest

/-- The warnings printed by the `start_page >= end_page` branch of the
plan-building loop (src/smart_split.py line 182), as (title, start_page)
pairs in loop order. -/
def skippedSections (total : Nat) : List SplitNode → List (String × Nat)
  | [] => []
  | n :: rest =>
    let endPage := match rest with
      | [] => total
      | m :: _ => m.page
    (if n.page ≥ endPage then [(n.title, n.page)] else []) ++ skippedSections total rest

/-- Embedding of `generate_split_plan` (src/smart_split.py lines 129–196) on
an already-opened document, for the caller-supplied-prefix branch: an empty
outline returns the empty plan ("PDF has no outline."), the prefix is
sanitized, the selector runs from depth 1, an empty selection returns the
empty plan ("No matching outline items found."), and otherwise the nodes are
stably sorted by page and the plan loop runs.  `total` is
`len(reader.pages)`. -/
def generate_split_plan (outline : List OutlineItem) (total : Nat) (layer : Nat)
    (pfx : String) : List PartitionEntry :=
  if outline.isEmpty then []
  else
    let raw := get_split_nodes outline 1 layer
    if raw.isEmpty then []
    else buildPlanAux (sanitize_filename pfx) total 0 (sortNodes raw)

/-- Exit behaviour of `main` (src/smart_split.py lines 233–235): an empty
plan prints "Could not generate a valid split plan." and exits with code 1;
otherwise execution proceeds (exit code 0). -/
def main_exit_code (plan : List PartitionEntry) : Nat :=
  if plan.isEmpty then 1 else 0

/-- All destinations appearing anywhere in an outline (any depth), as
(title, resolution result) pairs.  Used to relate selector output to source
nodes. -/
def destsOf : List OutlineItem → List (String × Option Nat)
  | [] => []
  | OutlineItem.sub items :: rest => destsOf items ++ destsOf rest
  | OutlineItem.dest t p :: rest => (t, p) :: destsOf rest

/-- All childless destinations with a resolved page anywhere in an outline,
tagged with their depth (`cd` is the depth of the list's own items).  A
destination is childless exactly when it is not immediately followed by a
nested list. -/
def leafBoundaries : List OutlineItem → Nat → List SplitNode
  | [], _ => []
  | OutlineItem.sub items :: rest, cd =>
      leafBoundaries items (cd + 1) ++ leafBoundaries rest cd
  | OutlineItem.dest _ _ :: OutlineItem.sub children :: rest, cd =>
      leafBoundaries children (cd + 1) ++ leafBoundaries rest cd
  | OutlineItem.dest t p :: rest, cd =>
      (match p with
       | some pg => [{ title := t, page := pg, level := cd }]
       | none => []) ++ leafBoundaries rest cd

/-- A plan partitions the half-open page interval from `lo` to `hi`:
consecutive entries tile the interval with no gap, no overlap, and no empty
piece. -/
def IsPartition : List PartitionEntry → Nat → Nat → Prop
  | [], lo, hi => lo = hi
  | e :: rest, lo, hi => e.start_page = lo ∧ lo < e.end_page ∧ IsPartition rest e.end_page hi

/-- A page `x` is covered by some entry of the plan. -/
def coveredBy (plan : List PartitionEntry) (x : Nat) : Prop :=
  ∃ e ∈ plan, e.start_page ≤ x ∧ x < e.end_page


/-- End page chosen by the plan loop for the current node, given the nodes
that follow it: the next node's page, or the total page count for the last
node. -/
def nextEnd (total : Nat) : List SplitNode → Nat
  | [] => total
  | m :: _ => m.page

/-! ### Unfolding lemmas

`get_split_nodes` and `leafBoundaries` recurse into nested lists, so their
defining equations are established once here and used by rewriting. -/

/-- The outline list does not start with a nested (children) list. -/
def headNotSub (rest : List OutlineItem) : Prop :=
  ∀ (children tail : List OutlineItem), rest = OutlineItem.sub children :: tail → False

theorem get_split_nodes_nil (cd td : Nat) : get_split_nodes [] cd td = [] := by
  simp [get_split_nodes]

theorem get_split_nodes_sub (items rest : List OutlineItem) (cd td : Nat) :
    get_split_nodes (OutlineItem.sub items :: rest) cd td =
      get_split_nodes items (cd + 1) td ++ get_split_nodes rest cd td := by
  simp [get_split_nodes]

theorem get_split_nodes_dest_sub (t : String) (pg : Option Nat)
    (children rest : List OutlineItem) (cd td : Nat) :
    get_split_nodes (OutlineItem.dest t pg :: OutlineItem.sub children :: rest) cd td =
      (if cd = td then
        (match pg with
         | some p => [{ title := t, page := p, level := cd }]
         | none => [])
       else if cd < td then get_split_nodes children (cd + 1) td
       else []) ++ get_split_nodes rest cd td := by
  cases pg <;> simp [get_split_nodes]

theorem get_split_nodes_dest (t : String) (pg : Option Nat) (rest : List OutlineItem)
    (cd td : Nat) (hns : headNotSub rest) :
    get_split_nodes (OutlineItem.dest t pg :: rest) cd td =
      (if cd = td ∨ cd < td then
        (match pg with
         | some p => [{ title := t, page := p, level := cd }]
         | none => [])
       else []) ++ get_split_nodes rest cd td := by
  cases rest with
  | nil => cases pg <;> simp [get_split_nodes]
  | cons r tail =>
      cases r with
      | dest t' p' => cases pg <;> simp [get_split_nodes]
      | sub items => exact absurd rfl (hns items tail)

theorem leafBoundaries_nil (cd : Nat) : leafBoundaries [] cd = [] := by
  simp [leafBoundaries]

theorem leafBoundaries_sub (items rest : List OutlineItem) (cd : Nat) :
    leafBoundaries (OutlineItem.sub items :: rest) cd =
      leafBoundaries items (cd + 1) ++ leafBoundaries rest cd := by
  simp [leafBoundaries]

theorem leafBoundaries_dest_sub (t : String) (pg : Option Nat)
    (children rest : List OutlineItem) (cd : Nat) :
    leafBoundaries (OutlineItem.dest t pg :: OutlineItem.sub children :: rest) cd =
      leafBoundaries children (cd + 1) ++ leafBoundaries rest cd := by
  cases pg <;> simp [leafBoundaries]

theorem leafBoundaries_dest (t : String) (pg : Option Nat) (rest : List OutlineItem)
    (cd : Nat) (hns : headNotSub rest) :
    leafBoundaries (OutlineItem.dest t pg :: rest) cd =
      (match pg with
       | some p => [{ title := t, page := p, level := cd }]
       | none => []) ++ leafBoundaries rest cd := by
  cases rest with
  | nil => cases pg <;> simp [leafBoundaries]
  | cons r tail =>
      cases r with
      | dest t' p' => cases pg <;> simp [leafBoundaries]
      | sub items => exact absurd rfl (hns items tail)

/-! ### Selector lemmas -/

/-- Below the target depth the selector emits nothing: the branch guards
`current_depth == target_depth` and `current_depth < target_depth` both
fail, so only skipping remains. -/
theorem get_split_nodes_below_target (o : List OutlineItem) (cd td : Nat) :
    td < cd → get_split_nodes o cd td = [] := by
  induction o, cd, td using get_split_nodes.induct with
  | case1 => simp [get_split_nodes]
  | case2 cd td items rest ih1 ih2 =>
      intro h
      simp [get_split_nodes_sub, ih1 (by omega), ih2 h]
  | case3 title pg children rest cd td ih1 ih2 =>
      intro h
      have h1 : cd ≠ td := by omega
      have h2 : ¬ cd < td := by omega
      rw [get_split_nodes_dest_sub, ih2 h, if_neg h1, if_neg h2]
      simp
  | case4 title pg rest cd td hne ih =>
      intro h
      have h1 : ¬ (cd = td ∨ cd < td) := by omega
      rw [get_split_nodes_dest title pg rest cd td hne, ih h, if_neg h1]
      simp

/-- Every emitted node sits exactly at the target depth, or strictly above
it and childless (a member of `leafBoundaries`). -/
theorem get_split_nodes_level (o : List OutlineItem) (cd td : Nat) (n : SplitNode) :
    n ∈ get_split_nodes o cd td →
      n.level = td ∨ (n.level < td ∧ n ∈ leafBoundaries o cd) := by
  induction o, cd, td using get_split_nodes.induct with
  | case1 => simp [get_split_nodes_nil]
  | case2 cd td items rest ih1 ih2 =>
      intro h
      rw [get_split_nodes_sub] at h
      rw [leafBoundaries_sub]
      simp only [List.mem_append] at h ⊢
      rcases h with h | h
      · rcases ih1 h with h' | ⟨h1, h2⟩
        · exact Or.inl h'
        · exact Or.inr ⟨h1, Or.inl h2⟩
      · rcases ih2 h with h' | ⟨h1, h2⟩
        · exact Or.inl h'
        · exact Or.inr ⟨h1, Or.inr h2⟩
  | case3 title pg children rest cd td ih1 ih2 =>
      intro h
      rw [get_split_nodes_dest_sub] at h
      rw [leafBoundaries_dest_sub]
      simp only [List.mem_append] at h ⊢
      rcases h with h | h
      · by_cases hcd : cd = td
        · rw [if_pos hcd] at h
          cases pg with
          | none => simp at h
          | some p =>
              simp only [List.mem_singleton] at h
              subst h
              exact Or.inl hcd
        · rw [if_neg hcd] at h
          by_cases hlt : cd < td
          · rw [if_pos hlt] at h
            rcases ih1 h with h' | ⟨h1, h2⟩
            · exact Or.inl h'
            · exact Or.inr ⟨h1, Or.inl h2⟩
          · rw [if_neg hlt] at h
            simp at h
      · rcases ih2 h with h' | ⟨h1, h2⟩
        · exact Or.inl h'
        · exact Or.inr ⟨h1, Or.inr h2⟩
  | case4 title pg rest cd td hne ih =>
      intro h
      rw [get_split_nodes_dest title pg rest cd td hne] at h
      rw [leafBoundaries_dest title pg rest cd hne]
      simp only [List.mem_append] at h ⊢
      rcases h with h | h
      · by_cases hle : cd = td ∨ cd < td
        · rw [if_pos hle] at h
          cases pg with
          | none => simp at h
          | some p =>
              simp only [List.mem_singleton] at h
              subst h
              rcases hle with hle | hle
              · exact Or.inl hle
              · exact Or.inr ⟨hle, Or.inl (by simp)⟩
        · rw [if_neg hle] at h
          simp at h
      · rcases ih h with h' | ⟨h1, h2⟩
        · exact Or.inl h'
        · exact Or.inr ⟨h1, Or.inr h2⟩

/-- Every emitted node corresponds to a destination of the outline whose
page resolution succeeded: an unresolvable destination never anchors a
boundary. -/
theorem get_split_nodes_mem_destsOf (o : List OutlineItem) (cd td : Nat) (n : SplitNode) :
    n ∈ get_split_nodes o cd td → (n.title, some n.page) ∈ destsOf o := by
  induction o, cd, td using get_split_nodes.induct with
  | case1 => simp [get_split_nodes_nil]
  | case2 cd td items rest ih1 ih2 =>
      intro h
      rw [get_split_nodes_sub] at h
      simp only [destsOf, List.mem_append]
      simp only [List.mem_append] at h
      rcases h with h | h
      · exact Or.inl (ih1 h)
      · exact Or.inr (ih2 h)
  | case3 title pg children rest cd td ih1 ih2 =>
      intro h
      rw [get_split_nodes_dest_sub] at h
      simp only [destsOf, List.mem_append, List.mem_cons]
      simp only [List.mem_append] at h
      rcases h with h | h
      · by_cases hcd : cd = td
        · rw [if_pos hcd] at h
          cases pg with
          | none => simp at h
          | some p =>
              simp only [List.mem_singleton] at h
              subst h
              exact Or.inl rfl
        · rw [if_neg hcd] at h
          by_cases hlt : cd < td
          · rw [if_pos hlt] at h
            exact Or.inr (Or.inl (ih1 h))
          · rw [if_neg hlt] at h
            simp at h
      · exact Or.inr (Or.inr (ih2 h))
  | case4 title pg rest cd td hne ih =>
      intro h
      rw [get_split_nodes_dest title pg rest cd td hne] at h
      simp only [destsOf, List.mem_cons]
      simp only [List.mem_append] at h
      rcases h with h | h
      · by_cases hle : cd = td ∨ cd < td
        · rw [if_pos hle] at h
          cases pg with
          | none => simp at h
          | some p =>
              simp only [List.mem_singleton] at h
              subst h
              exact Or.inl rfl
        · rw [if_neg hle] at h
          simp at h
      · exact Or.inr (ih h)

/-! ### Sorting lemmas -/

theorem mem_insertNode (n a : SplitNode) (l : List SplitNode) :
    a ∈ insertNode n l ↔ a = n ∨ a ∈ l := by
  induction l with
  | nil => simp [insertNode]
  | cons m rest ih =>
      by_cases h : m.page ≤ n.page
      · simp only [insertNode, if_pos h, List.mem_cons, ih]
        tauto
      · simp [insertNode, if_neg h, List.mem_cons]

theorem insertNode_pairwise (n : SplitNode) (l : List SplitNode)
    (h : List.Pairwise (fun a b => a.page ≤ b.page) l) :
    List.Pairwise (fun a b => a.page ≤ b.page) (insertNode n l) := by
  induction l with
  | nil => simp [insertNode]
  | cons m rest ih =>
      rcases List.pairwise_cons.mp h with ⟨hm, hrest⟩
      by_cases hc : m.page ≤ n.page
      · rw [insertNode, if_pos hc]
        refine List.pairwise_cons.mpr ⟨?_, ih hrest⟩
        intro b hb
        rcases (mem_insertNode n b rest).mp hb with rfl | hb'
        · exact hc
        · exact hm b hb'
      · rw [insertNode, if_neg hc]
        refine List.pairwise_cons.mpr ⟨?_, h⟩
        intro b hb
        rcases List.mem_cons.mp hb with rfl | hb'
        · omega
        · have := hm b hb'
          omega

theorem sortNodes_go_pairwise (l : List SplitNode) :
    ∀ acc, List.Pairwise (fun a b => a.page ≤ b.page) acc →
      List.Pairwise (fun a b => a.page ≤ b.page)
        (l.foldl (fun acc n => insertNode n acc) acc) := by
  induction l with
  | nil => intro acc h; simpa using h
  | cons n rest ih =>
      intro acc h
      rw [List.foldl_cons]
      exact ih _ (insertNode_pairwise n acc h)

theorem sortNodes_pairwise (l : List SplitNode) :
    List.Pairwise (fun a b => a.page ≤ b.page) (sortNodes l) :=
  sortNodes_go_pairwise l [] List.Pairwise.nil

theorem mem_sortNodes_go (l : List SplitNode) :
    ∀ acc a, a ∈ l.foldl (fun acc n => insertNode n acc) acc ↔ a ∈ l ∨ a ∈ acc := by
  induction l with
  | nil => intro acc a; simp
  | cons n rest ih =>
      intro acc a
      rw [List.foldl_cons, ih, mem_insertNode]
      simp only [List.mem_cons]
      tauto

theorem mem_sortNodes (l : List SplitNode) (a : SplitNode) :
    a ∈ sortNodes l ↔ a ∈ l := by
  rw [sortNodes, mem_sortNodes_go]
  simp

/-! ### Plan-builder lemmas -/

theorem buildPlanAux_cons (pfx : String) (total idx : Nat) (n : SplitNode)
    (rest : List SplitNode) :
    buildPlanAux pfx total idx (n :: rest) =
      if n.page ≥ nextEnd total rest then buildPlanAux pfx total (idx + 1) rest
      else
        { title := n.title, start_page := n.page, end_page := nextEnd total rest,
          filename :=
            pfx ++ "_" ++ fmt02 (idx + 1) ++ "_" ++ sanitize_filename n.title ++ ".pdf" }
          :: buildPlanAux pfx total (idx + 1) rest := by
  cases rest <;> rfl

theorem skippedSections_cons (total : Nat) (n : SplitNode) (rest : List SplitNode) :
    skippedSections total (n :: rest) =
      (if n.page ≥ nextEnd total rest then [(n.title, n.page)] else []) ++
        skippedSections total rest := by
  cases rest <;> rfl

/-- Every emitted entry has a non-degenerate range: the guard skips any
section with `start_page >= end_page`. -/
theorem buildPlanAux_start_lt_end (pfx : String) (total : Nat) :
    ∀ (nodes : List SplitNode) (idx : Nat) (e : PartitionEntry),
      e ∈ buildPlanAux pfx total idx nodes → e.start_page < e.end_page := by
  intro nodes
  induction nodes with
  | nil =>
      intro idx e h
      simp [buildPlanAux] at h
  | cons n rest ih =>
      intro idx e h
      rw [buildPlanAux_cons] at h
      by_cases hc : n.page ≥ nextEnd total rest
      · rw [if_pos hc] at h
        exact ih (idx + 1) e h
      · rw [if_neg hc] at h
        rcases List.mem_cons.mp h with rfl | h'
        · simpa using (by omega : n.page < nextEnd total rest)
        · exact ih (idx + 1) e h'

/-- Every emitted entry originates from a node of the input list, and its
filename is built from the node's 0-based position `j` in that list (offset
by the running enumeration index), regardless of skipped entries in
between. -/
theorem buildPlanAux_mem_source (pfx : String) (total : Nat) :
    ∀ (nodes : List SplitNode) (idx : Nat) (e : PartitionEntry),
      e ∈ buildPlanAux pfx total idx nodes →
      ∃ (j : Nat) (n : SplitNode), nodes[j]? = some n ∧ e.title = n.title ∧
        e.start_page = n.page ∧
        e.filename =
          pfx ++ "_" ++ fmt02 (idx + j + 1) ++ "_" ++ sanitize_filename n.title ++ ".pdf" := by
  intro nodes
  induction nodes with
  | nil =>
      intro idx e h
      simp [buildPlanAux] at h
  | cons n rest ih =>
      intro idx e h
      rw [buildPlanAux_cons] at h
      by_cases hc : n.page ≥ nextEnd total rest
      · rw [if_pos hc] at h
        rcases ih (idx + 1) e h with ⟨j, m, hj, h1, h2, h3⟩
        refine ⟨j + 1, m, by simpa using hj, h1, h2, ?_⟩
        rw [show idx + (j + 1) + 1 = idx + 1 + j + 1 by omega]
        exact h3
      · rw [if_neg hc] at h
        rcases List.mem_cons.mp h with rfl | h'
        · exact ⟨0, n, by simp, rfl, rfl, by simp⟩
        · rcases ih (idx + 1) e h' with ⟨j, m, hj, h1, h2, h3⟩
          refine ⟨j + 1, m, by simpa using hj, h1, h2, ?_⟩
          rw [show idx + (j + 1) + 1 = idx + 1 + j + 1 by omega]
          exact h3

/-- On a page-sorted node list whose pages do not exceed `total`, the plan
loop tiles the interval from the first node's page up to `total`. -/
theorem buildPlanAux_isPartition (pfx : String) (total : Nat) :
    ∀ (nodes : List SplitNode) (idx : Nat),
      List.Pairwise (fun a b => a.page ≤ b.page) nodes →
      (∀ n ∈ nodes, n.page ≤ total) →
      IsPartition (buildPlanAux pfx total idx nodes) (nextEnd total nodes) total := by
  intro nodes
  induction nodes with
  | nil =>
      intro idx _ _
      simp [buildPlanAux, nextEnd, IsPartition]
  | cons n rest ih =>
      intro idx hp hb
      rcases List.pairwise_cons.mp hp with ⟨hn, hrest⟩
      have hb' : ∀ m ∈ rest, m.page ≤ total := fun m hm => hb m (List.mem_cons_of_mem _ hm)
      have hbn : n.page ≤ total := hb n (List.mem_cons_self _ _)
      rw [buildPlanAux_cons]
      by_cases hc : n.page ≥ nextEnd total rest
      · rw [if_pos hc]
        have heq : nextEnd total (n :: rest) = nextEnd total rest := by
          cases rest with
          | nil =>
              have hc' : n.page ≥ total := hc
              show n.page = total
              omega
          | cons m r =>
              have hc' : n.page ≥ m.page := hc
              have := hn m (List.mem_cons_self _ _)
              show n.page = m.page
              omega
        rw [heq]
        exact ih (idx + 1) hrest hb'
      · rw [if_neg hc]
        refine ⟨rfl, ?_, ih (idx + 1) hrest hb'⟩
        show n.page < nextEnd total rest
        omega

/-! ### Partition-predicate lemmas -/

theorem isPartition_le : ∀ (plan : List PartitionEntry) (lo hi : Nat),
    IsPartition plan lo hi → lo ≤ hi := by
  intro plan
  induction plan with
  | nil =>
      intro lo hi h
      exact Nat.le_of_eq h
  | cons e rest ih =>
      intro lo hi h
      rcases h with ⟨h1, h2, h3⟩
      have := ih e.end_page hi h3
      omega

theorem isPartition_mem_bounds : ∀ (plan : List PartitionEntry) (lo hi : Nat)
    (e : PartitionEntry), IsPartition plan lo hi → e ∈ plan →
    lo ≤ e.start_page ∧ e.start_page < e.end_page ∧ e.end_page ≤ hi := by
  intro plan
  induction plan with
  | nil =>
      intro lo hi e _ hm
      simp at hm
  | cons f rest ih =>
      intro lo hi e h hm
      rcases h with ⟨h1, h2, h3⟩
      rcases List.mem_cons.mp hm with rfl | hm'
      · have := isPartition_le rest e.end_page hi h3
        omega
      · have := ih f.end_page hi e h3 hm'
        omega

theorem isPartition_pairwise : ∀ (plan : List PartitionEntry) (lo hi : Nat),
    IsPartition plan lo hi →
    List.Pairwise (fun a b => a.end_page ≤ b.start_page) plan := by
  intro plan
  induction plan with
  | nil => intro lo hi _; exact List.Pairwise.nil
  | cons f rest ih =>
      intro lo hi h
      rcases h with ⟨h1, h2, h3⟩
      refine List.pairwise_cons.mpr ⟨?_, ih f.end_page hi h3⟩
      intro b hb
      exact (isPartition_mem_bounds rest f.end_page hi b h3 hb).1

theorem isPartition_coveredBy : ∀ (plan : List PartitionEntry) (lo hi : Nat),
    IsPartition plan lo hi → ∀ x, coveredBy plan x ↔ (lo ≤ x ∧ x < hi) := by
  intro plan
  induction plan with
  | nil =>
      intro lo hi h x
      simp only [coveredBy, List.not_mem_nil]
      constructor
      · rintro ⟨e, he, _⟩
        exact absurd he (by simp)
      · intro hx
        have h' : lo = hi := h
        omega
  | cons e rest ih =>
      intro lo hi h x
      rcases h with ⟨h1, h2, h3⟩
      have hehi : e.end_page ≤ hi := isPartition_le rest e.end_page hi h3
      constructor
      · rintro ⟨f, hf, hx1, hx2⟩
        rcases List.mem_cons.mp hf with rfl | hf'
        · omega
        · have hb := isPartition_mem_bounds rest e.end_page hi f h3 hf'
          omega
      · rintro ⟨hx1, hx2⟩
        by_cases hxe : x < e.end_page
        · exact ⟨e, List.mem_cons_self _ _, by omega, hxe⟩
        · rcases (ih e.end_page hi h3 x).mpr ⟨by omega, hx2⟩ with ⟨f, hf, hfa, hfb⟩
          exact ⟨f, List.mem_cons_of_mem _ hf, hfa, hfb⟩

/-! ### Sanitization lemmas -/

theorem map_id_of_mem {α : Type} (l : List α) (f : α → α) (h : ∀ c ∈ l, f c = c) :
    l.map f = l := by
  induction l with
  | nil => rfl
  | cons c rest ih =>
      rw [List.map_cons, h c (List.mem_cons_self _ _), ih fun b hb => h b (List.mem_cons_of_mem _ hb)]

theorem mem_of_mem_pyStrip (c : Char) (l : List Char) (h : c ∈ pyStrip l) : c ∈ l := by
  rw [pyStrip, List.mem_reverse] at h
  have h1 : c ∈ (l.dropWhile pyWhitespace).reverse :=
    List.Sublist.mem h (List.dropWhile_sublist _)
  rw [List.mem_reverse] at h1
  exact List.Sublist.mem h1 (List.dropWhile_sublist _)

/-- After both character replacements, no character is in the regex class
and none is a space. -/
theorem mem_map_map_ok (c : Char) (l : List Char)
    (h : c ∈ (l.map replaceForbidden).map replaceSpace) :
    c ∉ forbiddenChars ∧ c ≠ ' ' := by
  rcases List.mem_map.mp h with ⟨b, hb, rfl⟩
  rcases List.mem_map.mp hb with ⟨a, _, rfl⟩
  constructor
  · rw [replaceSpace]
    by_cases h2 : replaceForbidden a = ' '
    · rw [if_pos h2]
      decide
    · rw [if_neg h2, replaceForbidden]
      by_cases h3 : a ∈ forbiddenChars
      · rw [if_pos h3]
        decide
      · rw [if_neg h3]
        exact h3
  · rw [replaceSpace]
    by_cases h2 : replaceForbidden a = ' '
    · rw [if_pos h2]
      decide
    · rw [if_neg h2]
      exact h2

theorem dropWhile_dropWhile (p : Char → Bool) (l : List Char) :
    List.dropWhile p (List.dropWhile p l) = List.dropWhile p l := by
  induction l with
  | nil => simp
  | cons c rest ih =>
      by_cases h : p c
      · rw [List.dropWhile_cons, if_pos h, ih]
      · rw [List.dropWhile_cons, if_neg h, List.dropWhile_cons, if_neg h]

theorem dropWhile_head_false (p : Char → Bool) (l : List Char) (c : Char)
    (h : (List.dropWhile p l).head? = some c) : p c = false := by
  induction l with
  | nil => simp at h
  | cons b rest ih =>
      by_cases hb : p b
      · rw [List.dropWhile_cons, if_pos hb] at h
        exact ih h
      · rw [List.dropWhile_cons, if_neg hb] at h
        simp only [List.head?_cons, Option.some_inj] at h
        subst h
        simpa using hb

theorem dropWhile_eq_self_of_head (p : Char → Bool) (l : List Char)
    (h : ∀ c, l.head? = some c → p c = false) : List.dropWhile p l = l := by
  cases l with
  | nil => simp
  | cons c rest =>
      rw [List.dropWhile_cons, if_neg]
      simp [h c rfl]

/-- The front of a stripped list carries no whitespace. -/
theorem pyStrip_dropWhile_front (l : List Char) :
    List.dropWhile pyWhitespace (pyStrip l) = pyStrip l := by
  rw [pyStrip]
  set a := List.dropWhile pyWhitespace l with ha
  set b := List.dropWhile pyWhitespace a.reverse with hb
  have hpre : b.reverse <+: a := by
    have hsuf : b <:+ a.reverse := by
      rw [hb]
      exact List.dropWhile_suffix _
    have := List.reverse_prefix.mpr hsuf
    rwa [List.reverse_reverse] at this
  apply dropWhile_eq_self_of_head
  intro c hc
  cases hrev : b.reverse with
  | nil => simp [hrev] at hc
  | cons d t =>
      rw [hrev] at hc
      simp only [List.head?_cons, Option.some_inj] at hc
      rcases hpre with ⟨t', ht'⟩
      rw [hrev] at ht'
      have hhead : a.head? = some d := by
        rw [← ht']
        simp
      rw [← hc]
      exact dropWhile_head_false pyWhitespace l d hhead

/-- The back of a stripped list carries no whitespace. -/
theorem pyStrip_dropWhile_back (l : List Char) :
    List.dropWhile pyWhitespace (pyStrip l).reverse = (pyStrip l).reverse := by
  rw [pyStrip, List.reverse_reverse]
  exact dropWhile_dropWhile _ _

theorem pyStrip_eq_self (l : List Char)
    (h1 : List.dropWhile pyWhitespace l = l)
    (h2 : List.dropWhile pyWhitespace l.reverse = l.reverse) : pyStrip l = l := by
  rw [pyStrip, h1, h2, List.reverse_reverse]

theorem pyStrip_idem (l : List Char) : pyStrip (pyStrip l) = pyStrip l :=
  pyStrip_eq_self _ (pyStrip_dropWhile_front l) (pyStrip_dropWhile_back l)

/-- Every character of a sanitized string is outside the regex class and is
not a space. -/
theorem sanitize_filename_chars (s : String) (c : Char)
    (h : c ∈ (sanitize_filename s).data) : c ∉ forbiddenChars ∧ c ≠ ' ' := by
  rw [sanitize_filename] at h
  exact mem_map_map_ok c s.data (mem_of_mem_pyStrip c _ h)

/-- The sanitized string is its own strip: it carries no leading or trailing
whitespace. -/
theorem sanitize_filename_trimmed (s : String) :
    pyStrip (sanitize_filename s).data = (sanitize_filename s).data := by
  rw [sanitize_filename]
  exact pyStrip_idem _

theorem sanitize_filename_idem (s : String) :
    sanitize_filename (sanitize_filename s) = sanitize_filename s := by
  have hchars : ∀ c ∈ (sanitize_filename s).data, c ∉ forbiddenChars ∧ c ≠ ' ' :=
    fun c hc => sanitize_filename_chars s c hc
  have hrF : (sanitize_filename s).data.map replaceForbidden = (sanitize_filename s).data :=
    map_id_of_mem _ _ fun c hc => by
      rw [replaceForbidden, if_neg (hchars c hc).1]
  have hrS : (sanitize_filename s).data.map replaceSpace = (sanitize_filename s).data :=
    map_id_of_mem _ _ fun c hc => by
      rw [replaceSpace, if_neg (hchars c hc).2]
  show String.mk (pyStrip (((sanitize_filename s).data.map replaceForbidden).map replaceSpace)) =
    sanitize_filename s
  rw [hrF, hrS, sanitize_filename_trimmed]

/-! ### Pipeline lemma -/

theorem generate_split_plan_eq (o : List OutlineItem) (total layer : Nat) (pfx : String) :
    generate_split_plan o total layer pfx =
      if o.isEmpty ∨ (get_split_nodes o 1 layer).isEmpty then []
      else buildPlanAux (sanitize_filename pfx) total 0
        (sortNodes (get_split_nodes o 1 layer)) := by
  rw [generate_split_plan]
  by_cases h1 : o.isEmpty <;> by_cases h2 : (get_split_nodes o 1 layer).isEmpty <;>
    simp [h1, h2]

/-! ## Claims -/

/-- C1: for every outline tree and every target depth d ≥ 1, every node
emitted by the selector (invoked from depth 1, as `generate_split_plan`
does) has depth exactly d, or depth strictly less than d while corresponding
to a childless destination (a member of `leafBoundaries`); in particular no
emitted node has depth greater than d.  Moreover any outline list processed
at a depth below the target — such as the children of an emitted
target-depth node, which sit at depth d+1 — contributes no node at all. -/
theorem C1_selected_depth (o : List OutlineItem) (d : Nat) (hd : 1 ≤ d) (n : SplitNode)
    (hn : n ∈ get_split_nodes o 1 d) :
    (n.level = d ∨ (n.level < d ∧ n ∈ leafBoundaries o 1)) ∧
    (∀ (subtree : List OutlineItem) (cd : Nat), d < cd →
      get_split_nodes subtree cd d = []) :=
  ⟨get_split_nodes_level o 1 d n hn,
   fun subtree cd hcd => get_split_nodes_below_target subtree cd d hcd⟩

/-- Witness for C1 at Scenario A's outline with depth 2 and the childless
depth-1 node B. -/
theorem C1_selected_depth_witness :
    (1 ≤ 2 ∧
      (⟨"B", 10, 1⟩ : SplitNode) ∈ get_split_nodes
        [OutlineItem.dest "A" (some 0),
         OutlineItem.sub [OutlineItem.dest "A1" (some 0), OutlineItem.dest "A2" (some 5)],
         OutlineItem.dest "B" (some 10)] 1 2) ∧
    (((⟨"B", 10, 1⟩ : SplitNode).level = 2 ∨
      ((⟨"B", 10, 1⟩ : SplitNode).level < 2 ∧
        (⟨"B", 10, 1⟩ : SplitNode) ∈ leafBoundaries
          [OutlineItem.dest "A" (some 0),
           OutlineItem.sub [OutlineItem.dest "A1" (some 0), OutlineItem.dest "A2" (some 5)],
           OutlineItem.dest "B" (some 10)] 1)) ∧
      (∀ (subtree : List OutlineItem) (cd : Nat), 2 < cd →
        get_split_nodes subtree cd 2 = [])) := by
  have hmem : (⟨"B", 10, 1⟩ : SplitNode) ∈ get_split_nodes
      [OutlineItem.dest "A" (some 0),
       OutlineItem.sub [OutlineItem.dest "A1" (some 0), OutlineItem.dest "A2" (some 5)],
       OutlineItem.dest "B" (some 10)] 1 2 := by
    simp [get_split_nodes]
  exact ⟨⟨by decide, hmem⟩, C1_selected_depth _ 2 (by decide) _ hmem⟩

/-- C2: when every selected boundary's page is within the page count, the
produced plan's half-open ranges are pairwise disjoint and in increasing
page order, and (when the plan is nonempty, with `e` its first entry, whose
start page is the minimum) they cover exactly the interval from the minimum
start page up to the total page count — no gaps, no overlaps. -/
theorem C2_partition_complete (o : List OutlineItem) (total layer : Nat) (pfx : String)
    (hpages : ∀ n ∈ get_split_nodes o 1 layer, n.page ≤ total) :
    List.Pairwise (fun a b => a.end_page ≤ b.start_page)
      (generate_split_plan o total layer pfx) ∧
    ∀ e, (generate_split_plan o total layer pfx).head? = some e →
      (∀ f ∈ generate_split_plan o total layer pfx, e.start_page ≤ f.start_page) ∧
      (∀ x, coveredBy (generate_split_plan o total layer pfx) x ↔
        (e.start_page ≤ x ∧ x < total)) := by
  rw [generate_split_plan_eq]
  by_cases hif : o.isEmpty ∨ (get_split_nodes o 1 layer).isEmpty
  · rw [if_pos hif]
    refine ⟨List.Pairwise.nil, ?_⟩
    intro e he
    simp at he
  · rw [if_neg hif]
    have hsorted := sortNodes_pairwise (get_split_nodes o 1 layer)
    have hbound : ∀ n ∈ sortNodes (get_split_nodes o 1 layer), n.page ≤ total := by
      intro n hn
      exact hpages n ((mem_sortNodes _ n).mp hn)
    have hpart := buildPlanAux_isPartition (sanitize_filename pfx) total
      (sortNodes (get_split_nodes o 1 layer)) 0 hsorted hbound
    refine ⟨isPartition_pairwise _ _ _ hpart, ?_⟩
    intro e hhead
    cases hplan : buildPlanAux (sanitize_filename pfx) total 0
        (sortNodes (get_split_nodes o 1 layer)) with
    | nil =>
        rw [hplan] at hhead
        simp at hhead
    | cons f tl =>
        rw [hplan] at hhead hpart
        obtain rfl : f = e := by simpa using hhead
        have hstart : f.start_page = nextEnd total (sortNodes (get_split_nodes o 1 layer)) :=
          hpart.1
        constructor
        · intro g hg
          have := isPartition_mem_bounds _ _ _ g hpart hg
          omega
        · intro x
          rw [isPartition_coveredBy _ _ _ hpart x, hstart]

/-- Witness for C2 at Scenario A's outline with depth 2, 15 pages. -/
theorem C2_partition_complete_witness :
    (∀ n ∈ get_split_nodes
        [OutlineItem.dest "A" (some 0),
         OutlineItem.sub [OutlineItem.dest "A1" (some 0), OutlineItem.dest "A2" (some 5)],
         OutlineItem.dest "B" (some 10)] 1 2, n.page ≤ 15) ∧
    (List.Pairwise (fun a b => a.end_page ≤ b.start_page)
      (generate_split_plan
        [OutlineItem.dest "A" (some 0),
         OutlineItem.sub [OutlineItem.dest "A1" (some 0), OutlineItem.dest "A2" (some 5)],
         OutlineItem.dest "B" (some 10)] 15 2 "p") ∧
    ∀ e, (generate_split_plan
        [OutlineItem.dest "A" (some 0),
         OutlineItem.sub [OutlineItem.dest "A1" (some 0), OutlineItem.dest "A2" (some 5)],
         OutlineItem.dest "B" (some 10)] 15 2 "p").head? = some e →
      (∀ f ∈ generate_split_plan
        [OutlineItem.dest "A" (some 0),
         OutlineItem.sub [OutlineItem.dest "A1" (some 0), OutlineItem.dest "A2" (some 5)],
         OutlineItem.dest "B" (some 10)] 15 2 "p", e.start_page ≤ f.start_page) ∧
      (∀ x, coveredBy (generate_split_plan
        [OutlineItem.dest "A" (some 0),
         OutlineItem.sub [OutlineItem.dest "A1" (some 0), OutlineItem.dest "A2" (some 5)],
         OutlineItem.dest "B" (some 10)] 15 2 "p") x ↔
        (e.start_page ≤ x ∧ x < 15))) := by
  have hsel : get_split_nodes
      [OutlineItem.dest "A" (some 0),
       OutlineItem.sub [OutlineItem.dest "A1" (some 0), OutlineItem.dest "A2" (some 5)],
       OutlineItem.dest "B" (some 10)] 1 2 =
      [⟨"A1", 0, 2⟩, ⟨"A2", 5, 2⟩, ⟨"B", 10, 1⟩] := by
    simp [get_split_nodes]
  have hpages : ∀ n ∈ get_split_nodes
      [OutlineItem.dest "A" (some 0),
       OutlineItem.sub [OutlineItem.dest "A1" (some 0), OutlineItem.dest "A2" (some 5)],
       OutlineItem.dest "B" (some 10)] 1 2, n.page ≤ 15 := by
    rw [hsel]
    decide
  exact ⟨hpages, C2_partition_complete _ 15 2 "p" hpages⟩

/-- C3 counterexample: the outline `[A(unresolvable), [A1@3]]` at target
depth 2.  Node A's destination fails to resolve, A has children, and the
current depth (1) is below the target (2) — the code recurses into A's
children anyway, so A's descendant A1 appears in the selector output,
contradicting the claim that the subtree of an unresolvable node is not
explored and that no descendant of it appears. -/
theorem C3_counterexample :
    get_split_nodes
      [OutlineItem.dest "A" none, OutlineItem.sub [OutlineItem.dest "A1" (some 3)]] 1 2 =
      [⟨"A1", 3, 2⟩] := by
  simp [get_split_nodes]

/-- C3 amended: a node whose destination fails to resolve contributes no
boundary itself — every selector output and every plan entry corresponds to
a destination with a successfully-resolved page — but its subtree IS still
explored when the node has children and sits above the target depth (at the
target depth, node and subtree are both dropped): the children's
contribution is exactly the recursion into them, as the last equation
shows. -/
theorem C3_amended_unresolvable (o : List OutlineItem) (cd td : Nat) :
    (∀ n ∈ get_split_nodes o cd td, (n.title, some n.page) ∈ destsOf o) ∧
    (∀ (total layer : Nat) (pfx : String) (e : PartitionEntry),
        e ∈ generate_split_plan o total layer pfx →
        (e.title, some e.start_page) ∈ destsOf o) ∧
    (∀ (t : String) (children rest : List OutlineItem),
        get_split_nodes (OutlineItem.dest t none :: OutlineItem.sub children :: rest) cd td =
          (if cd < td then get_split_nodes children (cd + 1) td else []) ++
            get_split_nodes rest cd td) := by
  refine ⟨fun n hn => get_split_nodes_mem_destsOf o cd td n hn, ?_, ?_⟩
  · intro total layer pfx e he
    rw [generate_split_plan_eq] at he
    by_cases hif : o.isEmpty ∨ (get_split_nodes o 1 layer).isEmpty
    · rw [if_pos hif] at he
      simp at he
    · rw [if_neg hif] at he
      rcases buildPlanAux_mem_source (sanitize_filename pfx) total _ 0 e he with
        ⟨j, n, hj, h1, h2, _⟩
      have hn : n ∈ get_split_nodes o 1 layer :=
        (mem_sortNodes _ n).mp (List.getElem?_mem hj)
      rw [h1, h2]
      exact get_split_nodes_mem_destsOf o 1 layer n hn
  · intro t children rest
    rw [get_split_nodes_dest_sub]
    by_cases hcd : cd = td
    · subst hcd
      rw [if_pos rfl, if_neg (lt_irrefl cd)]
    · rw [if_neg hcd]

/-- Witness for the amended C3 at a one-node outline. -/
theorem C3_amended_unresolvable_witness :
    (⟨"X", 4, 1⟩ : SplitNode) ∈ get_split_nodes [OutlineItem.dest "X" (some 4)] 1 1 ∧
    ("X", some 4) ∈ destsOf [OutlineItem.dest "X" (some 4)] := by
  have hmem : (⟨"X", 4, 1⟩ : SplitNode) ∈ get_split_nodes [OutlineItem.dest "X" (some 4)] 1 1 := by
    simp [get_split_nodes]
  exact ⟨hmem, (C3_amended_unresolvable [OutlineItem.dest "X" (some 4)] 1 1).1 _ hmem⟩

/-- C4 counterexample: boundary B's page 20 exceeds totalPages = 10, yet the
builder does not treat the input as invalid: it emits the entry
`[5, 20)` whose `end_page` 20 exceeds `total_page_count` 10, violating the
claimed invariant `start_page < end_page <= total_page_count`. -/
theorem C4_counterexample :
    generate_split_plan
        [OutlineItem.dest "A" (some 5), OutlineItem.dest "B" (some 20)] 10 1 "p" =
      [⟨"A", 5, 20, "p_01_A.pdf"⟩] ∧ ¬ (20 ≤ 10) := by
  have h : get_split_nodes
      [OutlineItem.dest "A" (some 5), OutlineItem.dest "B" (some 20)] 1 1 =
      [⟨"A", 5, 1⟩, ⟨"B", 20, 1⟩] := by
    simp [get_split_nodes]
  constructor
  · rw [generate_split_plan_eq, h]
    decide
  · decide

/-- C4 amended: every produced entry satisfies `start_page < end_page`; the
builder performs no page-count validation and reports no failure, but
whenever every selected boundary's page is within `total`, every entry also
satisfies `end_page ≤ total`.  (With an out-of-range boundary page, entries
with `end_page > total` are emitted, as the counterexample shows.) -/
theorem C4_amended_entry_invariant (o : List OutlineItem) (total layer : Nat) (pfx : String) :
    (∀ e ∈ generate_split_plan o total layer pfx, e.start_page < e.end_page) ∧
    ((∀ n ∈ get_split_nodes o 1 layer, n.page ≤ total) →
      ∀ e ∈ generate_split_plan o total layer pfx, e.end_page ≤ total) := by
  rw [generate_split_plan_eq]
  by_cases hif : o.isEmpty ∨ (get_split_nodes o 1 layer).isEmpty
  · rw [if_pos hif]
    exact ⟨fun e he => absurd he (by simp), fun _ e he => absurd he (by simp)⟩
  · rw [if_neg hif]
    constructor
    · intro e he
      exact buildPlanAux_start_lt_end (sanitize_filename pfx) total _ 0 e he
    · intro hpages e he
      have hsorted := sortNodes_pairwise (get_split_nodes o 1 layer)
      have hbound : ∀ n ∈ sortNodes (get_split_nodes o 1 layer), n.page ≤ total := by
        intro n hn
        exact hpages n ((mem_sortNodes _ n).mp hn)
      have hpart := buildPlanAux_isPartition (sanitize_filename pfx) total
        (sortNodes (get_split_nodes o 1 layer)) 0 hsorted hbound
      exact (isPartition_mem_bounds _ _ _ e hpart he).2.2

/-- Witness for the amended C4 at a one-node outline with 5 pages. -/
theorem C4_amended_entry_invariant_witness :
    (⟨"A", 0, 5, "p_01_A.pdf"⟩ : PartitionEntry) ∈
      generate_split_plan [OutlineItem.dest "A" (some 0)] 5 1 "p" ∧
    (∀ n ∈ get_split_nodes [OutlineItem.dest "A" (some 0)] 1 1, n.page ≤ 5) ∧
    (0 < 5 ∧ 5 ≤ 5) := by
  have h : get_split_nodes [OutlineItem.dest "A" (some 0)] 1 1 = [⟨"A", 0, 1⟩] := by
    simp [get_split_nodes]
  have hmem : (⟨"A", 0, 5, "p_01_A.pdf"⟩ : PartitionEntry) ∈
      generate_split_plan [OutlineItem.dest "A" (some 0)] 5 1 "p" := by
    rw [generate_split_plan_eq, h]
    decide
  have hpages : ∀ n ∈ get_split_nodes [OutlineItem.dest "A" (some 0)] 1 1, n.page ≤ 5 := by
    rw [h]
    decide
  exact ⟨hmem, hpages,
    (C4_amended_entry_invariant [OutlineItem.dest "A" (some 0)] 5 1 "p").1 _ hmem,
    (C4_amended_entry_invariant [OutlineItem.dest "A" (some 0)] 5 1 "p").2 hpages _ hmem⟩

/-- C5 counterexample: boundaries A@0 and B@0 with 5 pages.  A's degenerate
section `[0,0)` is skipped, so the single emitted entry (B's) is the 1st
among emitted entries, yet its filename carries sequence number 02 — B's
enumeration index in the sorted boundary list — not 01 as the claim's
"skipped entries do not consume a sequence number" requires. -/
theorem C5_counterexample :
    generate_split_plan
        [OutlineItem.dest "A" (some 0), OutlineItem.dest "B" (some 0)] 5 1 "p" =
      [⟨"B", 0, 5, "p_02_B.pdf"⟩] ∧ "p_02_B.pdf" ≠ "p_01_B.pdf" := by
  have h : get_split_nodes
      [OutlineItem.dest "A" (some 0), OutlineItem.dest "B" (some 0)] 1 1 =
      [⟨"A", 0, 1⟩, ⟨"B", 0, 1⟩] := by
    simp [get_split_nodes]
  constructor
  · rw [generate_split_plan_eq, h]
    decide
  · decide

/-- C5 amended: every plan entry's filename is
`pfx_NN_title.pdf` where `NN` is the (zero-padded) 1-based position of the
entry's source node in the page-sorted boundary list counting ALL nodes —
including nodes whose degenerate sections were skipped, which therefore do
consume sequence numbers and leave gaps. -/
theorem C5_amended_filename_numbering (o : List OutlineItem) (total layer : Nat)
    (pfx : String) (e : PartitionEntry)
    (he : e ∈ generate_split_plan o total layer pfx) :
    ∃ (j : Nat) (n : SplitNode),
      (sortNodes (get_split_nodes o 1 layer))[j]? = some n ∧
      e.title = n.title ∧ e.start_page = n.page ∧
      e.filename = sanitize_filename pfx ++ "_" ++ fmt02 (j + 1) ++ "_" ++
        sanitize_filename n.title ++ ".pdf" := by
  rw [generate_split_plan_eq] at he
  by_cases hif : o.isEmpty ∨ (get_split_nodes o 1 layer).isEmpty
  · rw [if_pos hif] at he
    simp at he
  · rw [if_neg hif] at he
    rcases buildPlanAux_mem_source (sanitize_filename pfx) total _ 0 e he with
      ⟨j, n, hj, h1, h2, h3⟩
    refine ⟨j, n, hj, h1, h2, ?_⟩
    rw [show j + 1 = 0 + j + 1 by omega]
    exact h3

/-- Witness for the amended C5 at the duplicate-page scenario, where the
emitted entry keeps sequence number 02. -/
theorem C5_amended_filename_numbering_witness :
    (⟨"B", 0, 5, "p_02_B.pdf"⟩ : PartitionEntry) ∈
      generate_split_plan
        [OutlineItem.dest "A" (some 0), OutlineItem.dest "B" (some 0)] 5 1 "p" ∧
    ∃ (j : Nat) (n : SplitNode),
      (sortNodes (get_split_nodes
        [OutlineItem.dest "A" (some 0), OutlineItem.dest "B" (some 0)] 1 1))[j]? = some n ∧
      (⟨"B", 0, 5, "p_02_B.pdf"⟩ : PartitionEntry).title = n.title ∧
      (⟨"B", 0, 5, "p_02_B.pdf"⟩ : PartitionEntry).start_page = n.page ∧
      (⟨"B", 0, 5, "p_02_B.pdf"⟩ : PartitionEntry).filename =
        sanitize_filename "p" ++ "_" ++ fmt02 (j + 1) ++ "_" ++
          sanitize_filename n.title ++ ".pdf" := by
  have h : get_split_nodes
      [OutlineItem.dest "A" (some 0), OutlineItem.dest "B" (some 0)] 1 1 =
      [⟨"A", 0, 1⟩, ⟨"B", 0, 1⟩] := by
    simp [get_split_nodes]
  have hmem : (⟨"B", 0, 5, "p_02_B.pdf"⟩ : PartitionEntry) ∈
      generate_split_plan
        [OutlineItem.dest "A" (some 0), OutlineItem.dest "B" (some 0)] 5 1 "p" := by
    rw [generate_split_plan_eq, h]
    decide
  exact ⟨hmem, C5_amended_filename_numbering _ 5 1 "p" _ hmem⟩

/-- C6 counterexample: boundaries A@0, B@0, C@3 with 5 pages.  The claim
says that of two boundaries resolving to the same page the SECOND produces
the degenerate range and is skipped; the code instead gives the FIRST
duplicate (A) the degenerate range `[0,0)` and skips it — the diagnostic
names A — while the second duplicate (B) survives with range `[0,3)`. -/
theorem C6_counterexample :
    generate_split_plan
        [OutlineItem.dest "A" (some 0), OutlineItem.dest "B" (some 0),
         OutlineItem.dest "C" (some 3)] 5 1 "p" =
      [⟨"B", 0, 3, "p_02_B.pdf"⟩, ⟨"C", 3, 5, "p_03_C.pdf"⟩] ∧
    skippedSections 5 (sortNodes (get_split_nodes
        [OutlineItem.dest "A" (some 0), OutlineItem.dest "B" (some 0),
         OutlineItem.dest "C" (some 3)] 1 1)) = [("A", 0)] := by
  have h : get_split_nodes
      [OutlineItem.dest "A" (some 0), OutlineItem.dest "B" (some 0),
       OutlineItem.dest "C" (some 3)] 1 1 =
      [⟨"A", 0, 1⟩, ⟨"B", 0, 1⟩, ⟨"C", 3, 1⟩] := by
    simp [get_split_nodes]
  constructor
  · rw [generate_split_plan_eq, h]
    decide
  · rw [h]
    decide

/-- C6 amended: a degenerate section (`start_page >= end_page`) is skipped
— a diagnostic naming it is emitted — and the loop continues with the
remaining sections instead of aborting; when two adjacent sorted boundaries
share a page it is the FIRST of the two that gets the degenerate range and
is skipped (dropping it from the plan while the loop proceeds on the rest),
every surviving entry is non-degenerate, and on sorted in-range boundaries
the surviving entries still tile the remaining page space. -/
theorem C6_amended_degenerate_skip (pfx : String) (total idx : Nat) (n₁ n₂ : SplitNode)
    (rest : List SplitNode) (hdup : n₂.page ≤ n₁.page) :
    buildPlanAux pfx total idx (n₁ :: n₂ :: rest) =
      buildPlanAux pfx total (idx + 1) (n₂ :: rest) ∧
    (n₁.title, n₁.page) ∈ skippedSections total (n₁ :: n₂ :: rest) ∧
    (∀ e ∈ buildPlanAux pfx total idx (n₁ :: n₂ :: rest), e.start_page < e.end_page) ∧
    (List.Pairwise (fun a b => a.page ≤ b.page) (n₁ :: n₂ :: rest) →
      (∀ n ∈ n₁ :: n₂ :: rest, n.page ≤ total) →
      IsPartition (buildPlanAux pfx total idx (n₁ :: n₂ :: rest)) n₁.page total) := by
  have hge : n₁.page ≥ nextEnd total (n₂ :: rest) := hdup
  refine ⟨?_, ?_, ?_, ?_⟩
  · rw [buildPlanAux_cons, if_pos hge]
  · rw [skippedSections_cons, if_pos hge]
    simp
  · intro e he
    exact buildPlanAux_start_lt_end pfx total _ idx e he
  · intro hp hb
    have := buildPlanAux_isPartition pfx total (n₁ :: n₂ :: rest) idx hp hb
    exact this

/-- Witness for the amended C6: A@0, B@0, C@3 with 5 pages, index 0. -/
theorem C6_amended_degenerate_skip_witness :
    ((⟨"B", 0, 1⟩ : SplitNode).page ≤ (⟨"A", 0, 1⟩ : SplitNode).page) ∧
    (buildPlanAux "p" 5 0 [⟨"A", 0, 1⟩, ⟨"B", 0, 1⟩, ⟨"C", 3, 1⟩] =
      buildPlanAux "p" 5 1 [⟨"B", 0, 1⟩, ⟨"C", 3, 1⟩] ∧
    ("A", 0) ∈ skippedSections 5 [⟨"A", 0, 1⟩, ⟨"B", 0, 1⟩, ⟨"C", 3, 1⟩] ∧
    (∀ e ∈ buildPlanAux "p" 5 0 [⟨"A", 0, 1⟩, ⟨"B", 0, 1⟩, ⟨"C", 3, 1⟩],
      e.start_page < e.end_page) ∧
    (List.Pairwise (fun a b => a.page ≤ b.page)
        [(⟨"A", 0, 1⟩ : SplitNode), ⟨"B", 0, 1⟩, ⟨"C", 3, 1⟩] →
      (∀ n ∈ [(⟨"A", 0, 1⟩ : SplitNode), ⟨"B", 0, 1⟩, ⟨"C", 3, 1⟩], n.page ≤ 5) →
      IsPartition (buildPlanAux "p" 5 0 [⟨"A", 0, 1⟩, ⟨"B", 0, 1⟩, ⟨"C", 3, 1⟩])
        (⟨"A", 0, 1⟩ : SplitNode).page 5)) :=
  ⟨by decide, C6_amended_degenerate_skip "p" 5 0 ⟨"A", 0, 1⟩ ⟨"B", 0, 1⟩
    [⟨"C", 3, 1⟩] (by decide)⟩

/-- C7: Scenario A — the outline `[A@0, [A1@0, A2@5], B@10]` at depth 2 with
15 pages selects exactly `[A1@0 (depth 2), A2@5 (depth 2), B@10 (depth 1)]`
(B kept as a childless leaf above the target depth) and the plan tiles
`[0,5), [5,10), [10,15)`; Scenario B — the same outline at depth 1 selects
`[A@0, B@10]` (A emitted, its children not descended into) with ranges
`[0,10), [10,15)`. -/
theorem C7_scenarios :
    get_split_nodes
      [OutlineItem.dest "A" (some 0),
       OutlineItem.sub [OutlineItem.dest "A1" (some 0), OutlineItem.dest "A2" (some 5)],
       OutlineItem.dest "B" (some 10)] 1 2 =
      [⟨"A1", 0, 2⟩, ⟨"A2", 5, 2⟩, ⟨"B", 10, 1⟩] ∧
    (generate_split_plan
      [OutlineItem.dest "A" (some 0),
       OutlineItem.sub [OutlineItem.dest "A1" (some 0), OutlineItem.dest "A2" (some 5)],
       OutlineItem.dest "B" (some 10)] 15 2 "p").map
        (fun e => (e.start_page, e.end_page)) = [(0, 5), (5, 10), (10, 15)] ∧
    get_split_nodes
      [OutlineItem.dest "A" (some 0),
       OutlineItem.sub [OutlineItem.dest "A1" (some 0), OutlineItem.dest "A2" (some 5)],
       OutlineItem.dest "B" (some 10)] 1 1 =
      [⟨"A", 0, 1⟩, ⟨"B", 10, 1⟩] ∧
    (generate_split_plan
      [OutlineItem.dest "A" (some 0),
       OutlineItem.sub [OutlineItem.dest "A1" (some 0), OutlineItem.dest "A2" (some 5)],
       OutlineItem.dest "B" (some 10)] 15 1 "p").map
        (fun e => (e.start_page, e.end_page)) = [(0, 10), (10, 15)] := by
  have h2 : get_split_nodes
      [OutlineItem.dest "A" (some 0),
       OutlineItem.sub [OutlineItem.dest "A1" (some 0), OutlineItem.dest "A2" (some 5)],
       OutlineItem.dest "B" (some 10)] 1 2 =
      [⟨"A1", 0, 2⟩, ⟨"A2", 5, 2⟩, ⟨"B", 10, 1⟩] := by
    simp [get_split_nodes]
  have h1 : get_split_nodes
      [OutlineItem.dest "A" (some 0),
       OutlineItem.sub [OutlineItem.dest "A1" (some 0), OutlineItem.dest "A2" (some 5)],
       OutlineItem.dest "B" (some 10)] 1 1 =
      [⟨"A", 0, 1⟩, ⟨"B", 10, 1⟩] := by
    simp [get_split_nodes]
  refine ⟨h2, ?_, h1, ?_⟩
  · rw [generate_split_plan_eq, h2]
    decide
  · rw [generate_split_plan_eq, h1]
    decide

/-- C8: for every input string, one application of `sanitize_filename`
yields an output containing none of the characters
`\ / * ? : " < > |` and no spaces, equal to its own strip (no leading or
trailing whitespace), and `sanitize_filename` is idempotent. -/
theorem C8_sanitize_ok (s : String) :
    (∀ c ∈ (sanitize_filename s).data,
      c ∉ ['\\', '/', '*', '?', ':', '"', '<', '>', '|'] ∧ c ≠ ' ') ∧
    pyStrip (sanitize_filename s).data = (sanitize_filename s).data ∧
    sanitize_filename (sanitize_filename s) = sanitize_filename s := by
  refine ⟨?_, sanitize_filename_trimmed s, sanitize_filename_idem s⟩
  intro c hc
  have h := sanitize_filename_chars s c hc
  refine ⟨?_, h.2⟩
  intro hmem
  apply h.1
  simp only [forbiddenChars, List.mem_cons, List.not_mem_nil, or_false] at hmem ⊢
  tauto

/-- Witness for C8 at the string "My:File?.pdf" and its character M. -/
theorem C8_sanitize_ok_witness :
    'M' ∈ (sanitize_filename "My:File?.pdf").data ∧
    ('M' ∉ ['\\', '/', '*', '?', ':', '"', '<', '>', '|'] ∧ 'M' ≠ ' ') ∧
    pyStrip (sanitize_filename "My:File?.pdf").data = (sanitize_filename "My:File?.pdf").data ∧
    sanitize_filename (sanitize_filename "My:File?.pdf") = sanitize_filename "My:File?.pdf" := by
  have hmem : 'M' ∈ (sanitize_filename "My:File?.pdf").data := by decide
  exact ⟨hmem, (C8_sanitize_ok "My:File?.pdf").1 'M' hmem,
    (C8_sanitize_ok "My:File?.pdf").2.1, (C8_sanitize_ok "My:File?.pdf").2.2⟩

/-- C9: an empty outline yields an empty boundary list (the functions are
total, so no exception is possible); a tree in which every destination
fails to resolve likewise yields an empty boundary list; and whenever the
pipeline yields zero entries `main` reports failure with exit code 1
instead of succeeding with an empty plan. -/
theorem C9_empty_cases (o : List OutlineItem)
    (hall : ∀ tp ∈ destsOf o, tp.2 = (none : Option Nat)) :
    (∀ cd td : Nat, get_split_nodes [] cd td = []) ∧
    (∀ cd td : Nat, get_split_nodes o cd td = []) ∧
    (∀ (total layer : Nat) (pfx : String),
      main_exit_code (generate_split_plan o total layer pfx) = 1) := by
  have hempty : ∀ cd td : Nat, get_split_nodes o cd td = [] := by
    intro cd td
    by_contra hne
    rcases List.exists_mem_of_ne_nil _ hne with ⟨n, hn⟩
    have hd := get_split_nodes_mem_destsOf o cd td n hn
    have := hall (n.title, some n.page) hd
    simp at this
  refine ⟨fun cd td => get_split_nodes_nil cd td, hempty, ?_⟩
  intro total layer pfx
  rw [generate_split_plan_eq, hempty 1 layer]
  simp [main_exit_code]

/-- Witness for C9 at a two-destination tree whose resolutions all fail. -/
theorem C9_empty_cases_witness :
    (∀ tp ∈ destsOf [OutlineItem.dest "A" none,
        OutlineItem.sub [OutlineItem.dest "B" none]], tp.2 = (none : Option Nat)) ∧
    get_split_nodes [] 1 1 = [] ∧
    get_split_nodes [OutlineItem.dest "A" none,
      OutlineItem.sub [OutlineItem.dest "B" none]] 1 2 = [] ∧
    main_exit_code (generate_split_plan [OutlineItem.dest "A" none,
      OutlineItem.sub [OutlineItem.dest "B" none]] 7 2 "p") = 1 := by
  have hall : ∀ tp ∈ destsOf [OutlineItem.dest "A" none,
      OutlineItem.sub [OutlineItem.dest "B" none]], tp.2 = (none : Option Nat) := by
    simp [destsOf]
  exact ⟨hall, (C9_empty_cases _ hall).1 1 1, (C9_empty_cases _ hall).2.1 1 2,
    (C9_empty_cases _ hall).2.2 7 2 "p"⟩

/-- C10: the regex class in `sanitize_filename` also contains a comma, which
the spec's forbidden-character list omits: first mapping commas to
underscores changes nothing, no comma survives sanitization, and
`sanitize_filename "a,b" = "a_b"`. -/
theorem C10_comma_also_replaced (s : String) :
    sanitize_filename (String.mk (s.data.map fun c => if c = ',' then '_' else c)) =
      sanitize_filename s ∧
    (∀ c ∈ (sanitize_filename s).data, c ≠ ',') ∧
    sanitize_filename "a,b" = "a_b" := by
  refine ⟨?_, ?_, by decide⟩
  · rw [sanitize_filename, sanitize_filename]
    have hmap : (s.data.map fun c => if c = ',' then '_' else c).map replaceForbidden =
        s.data.map replaceForbidden := by
      rw [List.map_map]
      apply List.map_congr_left
      intro a _
      show replaceForbidden (if a = ',' then '_' else a) = replaceForbidden a
      by_cases ha : a = ','
      · rw [if_pos ha, ha]
        decide
      · rw [if_neg ha]
    show String.mk (pyStrip (((String.mk (s.data.map fun c => if c = ',' then '_' else c)).data.map
        replaceForbidden).map replaceSpace)) = _
    rw [show (String.mk (s.data.map fun c => if c = ',' then '_' else c)).data =
        s.data.map fun c => if c = ',' then '_' else c from rfl, hmap]
  · intro c hc
    have h := sanitize_filename_chars s c hc
    intro hcomma
    apply h.1
    rw [hcomma]
    decide

/-- Witness for C10 at the string "x,y" and its character x. -/
theorem C10_comma_also_replaced_witness :
    'x' ∈ (sanitize_filename "x,y").data ∧
    sanitize_filename (String.mk (("x,y".data.map fun c => if c = ',' then '_' else c))) =
      sanitize_filename "x,y" ∧
    'x' ≠ ',' ∧
    sanitize_filename "a,b" = "a_b" := by
  have hmem : 'x' ∈ (sanitize_filename "x,y").data := by decide
  exact ⟨hmem, (C10_comma_also_replaced "x,y").1,
    (C10_comma_also_replaced "x,y").2.1 'x' hmem, (C10_comma_also_replaced "x,y").2.2⟩
